import Mathlib

/-!
Verification of the DAG-aware copy/rename tracer
(`eden/scm/lib/copytrace/src/dag_copy_trace.rs`).

The tracer's external collaborators (commit DAG, root-tree resolver, tree
store, file store, path-history rename tracer) are modelled as function
fields of a `DagCopyTrace` structure; the tracer's own logic is translated
function by function from the Rust source.  Commit vertices and tree ids
are natural numbers; repository paths are byte sequences (`RepoPathBuf`
ordering is byte-wise lexicographic); fallible operations return
`Except TraceError`.  Rust's `HashMap` is modelled as an association list
with unique keys, where insertion replaces an existing binding — which is
also the semantics of `collect::<HashMap<_, _>>()` on an iterator with
duplicate keys (later entries overwrite earlier ones).
-/

namespace CopyTrace

/-- Commit vertex identifier (`dag::Vertex` / `HgId`). -/
abbrev Vertex := Nat

/-- Root tree identifier. -/
abbrev TreeId := Nat

/-- A repository path (`RepoPathBuf`), modelled as its byte sequence. -/
abbrev Path := List Nat

/-- Model of `types::Key`: a (path, file node hash) pair identifying a file blob. -/
structure Key where
  path : Path
  hgid : Nat
deriving DecidableEq

/-- Errors: the `CopyTraceError` variants used by the tracer, plus opaque store errors
propagated verbatim from collaborators. -/
inductive TraceError where
  | RootTreeIdNotFound (commit : Vertex)
  | NoParents (commit : Vertex)
  | StoreError (code : Nat)
deriving DecidableEq

/-- Model of `SearchDirection` from `dag_copy_trace.rs`. -/
inductive SearchDirection where
  | Forward
  | Backward
deriving DecidableEq

/-- Model of `HashMap<RepoPathBuf, RepoPathBuf>` as an association list with
unique keys. -/
abbrev RenameMap := List (Path × Path)

/-- Model of `HashMap::insert`: replace the binding of the key if present, else append. -/
def mapInsert : RenameMap → Path → Path → RenameMap
  | [], k, v => [(k, v)]
  | (k', v') :: rest, k, v =>
    if k' = k then (k, v) :: rest else (k', v') :: mapInsert rest k v

/-- Model of `HashMap::get`: look a key up (first matching binding). -/
def lookupMap : RenameMap → Path → Option Path
  | [], _ => none
  | (k, v) :: rest, p => if k = p then some v else lookupMap rest p

/-- Byte-wise lexicographic strict order on paths (`Ord for RepoPathBuf`). -/
def pathLtB : Path → Path → Bool
  | [], [] => false
  | [], _ :: _ => true
  | _ :: _, [] => false
  | a :: as, b :: bs =>
    if a < b then true else if b < a then false else pathLtB as bs

/-- Non-strict lexicographic order on pairs of paths (`Ord` on `(RepoPathBuf,
RepoPathBuf)` tuples), used by `itertools::sorted`. -/
def pairLe (x y : Path × Path) : Bool :=
  if pathLtB x.1 y.1 then true
  else if pathLtB y.1 x.1 then false
  else if pathLtB x.2 y.2 then true
  else if pathLtB y.2 x.2 then false
  else true

/-- Insert one pair into a `pairLe`-sorted list of pairs. -/
def insertSorted (x : Path × Path) : List (Path × Path) → List (Path × Path)
  | [] => [x]
  | y :: ys => if pairLe x y then x :: y :: ys else y :: insertSorted x ys

/-- Model of `itertools::sorted`: sort pairs ascending by `pairLe`. -/
def sortedPairs (l : List (Path × Path)) : List (Path × Path) :=
  l.foldr insertSorted []

/-- Model of `collect::<HashMap<_, _>>()`: fold the pairs into a map by repeated
insertion; on duplicate keys the later entry overwrites the earlier one. -/
def hashMapOfList (l : List (Path × Path)) : RenameMap :=
  l.foldl (fun m kv => mapInsert m kv.1 kv.2) []

/-- Model of `.map(|(k, v)| (v, k))`: swap every pair. -/
def swapPairs (m : RenameMap) : List (Path × Path) :=
  m.map (fun kv => (kv.2, kv.1))

/-- The `Forward`-direction inversion in `find_renames_in_direction`:
`renames.into_iter().map(|(k, v)| (v, k)).sorted().collect::<HashMap<_, _>>()`. -/
def invertRenames (m : RenameMap) : RenameMap :=
  hashMapOfList (sortedPairs (swapPairs m))

/-- The tracer together with its external collaborators.  Fields model, in
order: `DagAlgorithm::parent_names`, `DagAlgorithm::is_ancestor`,
`DagAlgorithm::gca_one` on a two-vertex set, the composition of
`DagAlgorithm::range` with `pathhistory::RenameTracer::next` (the body of
`trace_rename_commit` below), `ReadRootTreeIds::read_root_tree_ids` on a
singleton batch, `TreeManifest::get` (presence of a path in a tree),
`ReadFileContents::read_rename_metadata` resolved per key, and the
`RightOnly` entries of `manifest_tree::Diff` between two trees. -/
structure DagCopyTrace where
  parent_names : Vertex → Except TraceError (List Vertex)
  is_ancestor : Vertex → Vertex → Except TraceError Bool
  gca_one : Vertex → Vertex → Except TraceError (Option Vertex)
  rename_tracer_next : Vertex → Vertex → Path → Except TraceError (Option Vertex)
  read_root_tree_ids : Vertex → Except TraceError (List (Vertex × TreeId))
  tree_get : TreeId → Path → Except TraceError Bool
  rename_meta : Key → Except TraceError (Option Key)
  diff_right_only : TreeId → TreeId → Except TraceError (List Key)

/-- The lazy stream produced by `file_reader.read_rename_metadata(keys)`:
one `(key, optional rename-from key)` item per input key, any of which may
be an error. -/
def renameStream (env : DagCopyTrace) (keys : List Key) :
    List (Except TraceError (Key × Option Key)) :=
  keys.map (fun k =>
    match env.rename_meta k with
    | .error e => .error e
    | .ok o => .ok (k, o))

/-- The drain loop of `read_renamed_metadata`: `while let Some(rename) =
renames.next().await { let (key, rename_from_key) = rename?; if let
Some(rfk) = rename_from_key { map.insert(key.path, rfk.path); } }`. -/
def drainRenames : List (Except TraceError (Key × Option Key)) → RenameMap →
    Except TraceError RenameMap
  | [], m => .ok m
  | item :: rest, m =>
    match item with
    | .error e => .error e
    | .ok (_, none) => drainRenames rest m
    | .ok (key, some rename_from_key) =>
      drainRenames rest (mapInsert m key.path rename_from_key.path)

/-- Model of `DagCopyTrace::read_renamed_metadata`. -/
def read_renamed_metadata (env : DagCopyTrace) (keys : List Key) :
    Except TraceError RenameMap :=
  drainRenames (renameStream env keys) []

/-- Model of `DagCopyTrace::vertex_to_tree_manifest`: resolve a commit to its root
tree id; an empty resolver answer is the `RootTreeIdNotFound` error, and
otherwise the tree id of the first returned pair is used. -/
def vertex_to_tree_manifest (env : DagCopyTrace) (commit : Vertex) :
    Except TraceError TreeId :=
  match env.read_root_tree_ids commit with
  | .error e => .error e
  | .ok [] => .error (TraceError.RootTreeIdNotFound commit)
  | .ok ((_, tree_id) :: _) => .ok tree_id

/-- Model of `DagCopyTrace::check_path`: `Some(path)` when the path is present in the
commit's tree, `None` otherwise. -/
def check_path (env : DagCopyTrace) (commit : Vertex) (path : Path) :
    Except TraceError (Option Path) :=
  match vertex_to_tree_manifest env commit with
  | .error e => .error e
  | .ok tree =>
    match env.tree_get tree path with
    | .error e => .error e
    | .ok true => .ok (some path)
    | .ok false => .ok none

/-- Model of `DagCopyTrace::find_renames`: collect the `RightOnly` (new-side-only)
entries of the tree diff and read their rename metadata in one batch. -/
def find_renames (env : DagCopyTrace) (old_tree new_tree : TreeId) :
    Except TraceError RenameMap :=
  match env.diff_right_only old_tree new_tree with
  | .error e => .error e
  | .ok new_files => read_renamed_metadata env new_files

/-- Model of `DagCopyTrace::find_renames_in_direction`. -/
def find_renames_in_direction (env : DagCopyTrace) (commit : Vertex)
    (direction : SearchDirection) : Except TraceError (RenameMap × Vertex) :=
  match env.parent_names commit with
  | .error e => .error e
  | .ok [] => .error (TraceError.NoParents commit)
  | .ok (p1 :: _) =>
    match vertex_to_tree_manifest env p1 with
    | .error e => .error e
    | .ok old_manifest =>
      match vertex_to_tree_manifest env commit with
      | .error e => .error e
      | .ok new_manifest =>
        match find_renames env old_manifest new_manifest with
        | .error e => .error e
        | .ok renames =>
          match direction with
          | SearchDirection.Backward => .ok (renames, p1)
          | SearchDirection.Forward => .ok (invertRenames renames, commit)

/-- One iteration of the `trace_rename_backward` loop: either a final
answer (`Sum.inl`) or the next `(curr, curr_path)` state (`Sum.inr`). -/
def backwardStep (env : DagCopyTrace) (target curr : Vertex) (curr_path : Path) :
    Except TraceError (Option Path ⊕ (Vertex × Path)) :=
  match env.rename_tracer_next target curr curr_path with
  | .error e => .error e
  | .ok none =>
    match check_path env target curr_path with
    | .error e => .error e
    | .ok r => .ok (Sum.inl r)
  | .ok (some rename_commit) =>
    if rename_commit = target then .ok (Sum.inl (some curr_path))
    else
      match find_renames_in_direction env rename_commit SearchDirection.Backward with
      | .error e => .error e
      | .ok (renames, next_commit) =>
        match lookupMap renames curr_path with
        | some next_path => .ok (Sum.inr (next_commit, next_path))
        | none => .ok (Sum.inl none)

/-- One iteration of the `trace_rename_forward` loop. -/
def forwardStep (env : DagCopyTrace) (target curr : Vertex) (curr_path : Path) :
    Except TraceError (Option Path ⊕ (Vertex × Path)) :=
  match env.rename_tracer_next curr target curr_path with
  | .error e => .error e
  | .ok none =>
    match check_path env target curr_path with
    | .error e => .error e
    | .ok r => .ok (Sum.inl r)
  | .ok (some rename_commit) =>
    if rename_commit = curr then .ok (Sum.inl (some curr_path))
    else
      match find_renames_in_direction env rename_commit SearchDirection.Forward with
      | .error e => .error e
      | .ok (renames, next_commit) =>
        match lookupMap renames curr_path with
        | some next_path => .ok (Sum.inr (next_commit, next_path))
        | none => .ok (Sum.inl none)

/-- The walker loop, fuelled: `none` means the fuel ran out before the loop
returned (the Rust loop has no fuel; termination is proved separately). -/
def runLoop (step : Vertex → Path → Except TraceError (Option Path ⊕ (Vertex × Path))) :
    Nat → Vertex → Path → Option (Except TraceError (Option Path))
  | 0, _, _ => none
  | fuel + 1, curr, curr_path =>
    match step curr curr_path with
    | .error e => some (.error e)
    | .ok (Sum.inl result) => some (.ok result)
    | .ok (Sum.inr (next_commit, next_path)) => runLoop step fuel next_commit next_path

/-- Model of `CopyTrace::trace_rename_backward`: walk from `dst` toward the ancestor
`src`, with `(curr, target, curr_path)` initialised to `(dst, src, dst_path)`. -/
def trace_rename_backward (env : DagCopyTrace) (fuel : Nat) (src dst : Vertex)
    (dst_path : Path) : Option (Except TraceError (Option Path)) :=
  runLoop (backwardStep env src) fuel dst dst_path

/-- Model of `CopyTrace::trace_rename_forward`: walk from `src` toward the descendant
`dst`, with `(curr, target, curr_path)` initialised to `(src, dst, src_path)`. -/
def trace_rename_forward (env : DagCopyTrace) (fuel : Nat) (src dst : Vertex)
    (src_path : Path) : Option (Except TraceError (Option Path)) :=
  runLoop (forwardStep env dst) fuel src src_path

/-- Model of `CopyTrace::trace_rename`: the direction dispatcher. -/
def trace_rename (env : DagCopyTrace) (fuel : Nat) (src dst : Vertex)
    (src_path : Path) : Option (Except TraceError (Option Path)) :=
  match env.is_ancestor src dst with
  | .error e => some (.error e)
  | .ok true => trace_rename_forward env fuel src dst src_path
  | .ok false =>
    match env.is_ancestor dst src with
    | .error e => some (.error e)
    | .ok true => trace_rename_backward env fuel dst src src_path
    | .ok false =>
      match env.gca_one src dst with
      | .error e => some (.error e)
      | .ok none => some (.ok none)
      | .ok (some base) =>
        match trace_rename_backward env fuel base src src_path with
        | none => none
        | some (.error e) => some (.error e)
        | some (.ok none) => some (.ok none)
        | some (.ok (some base_path)) =>
          trace_rename_forward env fuel base dst base_path

/-- An inert environment: every commit is a root with no parents, nothing is
an ancestor of anything, there is no common ancestor, the locator finds no
rename commit, commit `c` resolves to root tree `c`, trees are empty, no file
carries a rename header, and diffs are empty. -/
def env0 : DagCopyTrace where
  parent_names := fun _ => .ok []
  is_ancestor := fun _ _ => .ok false
  gca_one := fun _ _ => .ok none
  rename_tracer_next := fun _ _ _ => .ok none
  read_root_tree_ids := fun c => .ok [(c, c)]
  tree_get := fun _ _ => .ok false
  rename_meta := fun _ => .ok none
  diff_right_only := fun _ _ => .ok []

/-- Scenario "inversion collision": commit `1` (child of commit `0`) adds the
two files `x` (node hash 1) and `y` (node hash 2), both carrying rename
predecessor `a`, and removes `a`.  External collaborators are concrete:
commit `c` resolves to root tree `c`, and the rename-commit locator
(`pathhistory::RenameTracer`, whose code is not under `src/`) is modelled
from the spec: it yields the first commit in the range, scanning from the
descendant end, at which the path differs from the first parent (added,
removed, or changed) — so it reports commit `1` for path `a` on
`range(0, 1)`, and a commit reports itself for any path on a singleton
range in which it touched that path. -/
def envF (a x y : Path) : DagCopyTrace where
  parent_names := fun c => if c = 1 then .ok [0] else .ok []
  is_ancestor := fun u v => .ok (decide (u ≤ v))
  gca_one := fun _ _ => .ok none
  rename_tracer_next := fun s t _ =>
    if s = t then .ok (some s)
    else if s = 0 ∧ t = 1 then .ok (some 1)
    else .ok none
  read_root_tree_ids := fun c => .ok [(c, c)]
  tree_get := fun _ _ => .ok false
  rename_meta := fun k =>
    if k.hgid = 1 ∨ k.hgid = 2 then .ok (some ⟨a, 0⟩) else .ok none
  diff_right_only := fun o n =>
    if o = 0 ∧ n = 1 then .ok [⟨x, 1⟩, ⟨y, 2⟩] else .ok []

/-- Scenario "path removed at the commit itself": path `[7]` was deleted at
commit `1` (it is absent from commit `1`'s tree).  The rename-commit
locator (`pathhistory::RenameTracer`, not under `src/`) is modelled from the
spec: a commit modifies a path when the file differs from its first parent
— added, removed, or content-changed — so on the singleton range
`range(1, 1)` it reports commit `1` for path `[7]`.  Ancestry is reflexive
as in the dag crate. -/
def envD : DagCopyTrace where
  parent_names := fun c => if c = 1 then .ok [0] else .ok []
  is_ancestor := fun u v => .ok (decide (u = v))
  gca_one := fun _ _ => .ok none
  rename_tracer_next := fun s t p =>
    if s = 1 ∧ t = 1 ∧ p = [7] then .ok (some 1) else .ok none
  read_root_tree_ids := fun c => .ok [(c, c)]
  tree_get := fun _ _ => .ok false
  rename_meta := fun _ => .ok none
  diff_right_only := fun _ _ => .ok []

/-- A file store in which the file with node hash `9` carries a rename
header naming the file's own path: commit `1` (child of commit `0`) adds
`[5]` whose rename predecessor is `[5]` itself. -/
def envI : DagCopyTrace where
  parent_names := fun c => if c = 1 then .ok [0] else .ok []
  is_ancestor := fun _ _ => .ok false
  gca_one := fun _ _ => .ok none
  rename_tracer_next := fun _ _ _ => .ok none
  read_root_tree_ids := fun c => .ok [(c, c)]
  tree_get := fun _ _ => .ok false
  rename_meta := fun k =>
    if k.hgid = 9 then .ok (some ⟨k.path, 3⟩) else .ok none
  diff_right_only := fun o n =>
    if o = 0 ∧ n = 1 then .ok [⟨[5], 9⟩] else .ok []

/-- A locator that always reports commit `5`, whose parent list is empty. -/
def envW7 : DagCopyTrace :=
  { env0 with rename_tracer_next := fun _ _ _ => .ok (some 5) }

/-- A root-tree resolver with no entry for commit `3`. -/
def envW8 : DagCopyTrace :=
  { env0 with read_root_tree_ids := fun c =>
      if c = 3 then .ok [] else .ok [(c, c)] }

/-- A file store that reports rename predecessor `[2]` for node hash `1`
and a store error for node hash `9`. -/
def envC9 : DagCopyTrace :=
  { env0 with rename_meta := fun k =>
      if k.hgid = 1 then .ok (some ⟨[2], 0⟩)
      else if k.hgid = 9 then .error (.StoreError 0)
      else .ok none }

/-- A root-tree resolver that answers every query with the two pairs
`(7, 3)` and `(5, 9)` — the first pair names commit `7` regardless of the
commit asked about. -/
def envW10 : DagCopyTrace :=
  { env0 with read_root_tree_ids := fun _ => .ok [(7, 3), (5, 9)] }

/-- A file store in which every file carries a rename header whose source
path differs from the file's own path (one byte is prepended). -/
def envW6 : DagCopyTrace :=
  { env0 with rename_meta := fun k => .ok (some ⟨0 :: k.path, 0⟩) }

@[simp]
theorem pathLtB_irrefl : ∀ p : Path, pathLtB p p = false
  | [] => rfl
  | a :: as => by simp [pathLtB, pathLtB_irrefl as]

theorem lookupMap_mapInsert (m : RenameMap) (k v p : Path) :
    lookupMap (mapInsert m k v) p = if p = k then some v else lookupMap m p := by
  induction m with
  | nil =>
    by_cases h : k = p
    · subst h; simp [mapInsert, lookupMap]
    · simp [mapInsert, lookupMap, h, Ne.symm h]
  | cons kv rest ih =>
    obtain ⟨k', v'⟩ := kv
    by_cases h1 : k' = k
    · subst h1
      by_cases h2 : p = k'
      · subst h2; simp [mapInsert, lookupMap]
      · simp [mapInsert, lookupMap, h2, Ne.symm h2]
    · by_cases h3 : k' = p
      · have hpk : ¬ p = k := fun hh => h1 (h3.trans hh)
        simp [mapInsert, lookupMap, h1, h3, hpk]
      · simp [mapInsert, lookupMap, h1, h3, ih]

theorem mem_of_lookupMap : ∀ (m : RenameMap) (p q : Path),
    lookupMap m p = some q → (p, q) ∈ m := by
  intro m
  induction m with
  | nil => intro p q h; exact absurd h (by simp [lookupMap])
  | cons kv rest ih =>
    intro p q h
    obtain ⟨k, v⟩ := kv
    simp only [lookupMap] at h
    by_cases hk : k = p
    · rw [if_pos hk] at h
      injection h with h2
      subst h2
      subst hk
      exact List.mem_cons_self _ _
    · rw [if_neg hk] at h
      exact List.mem_cons_of_mem _ (ih p q h)

theorem mem_mapInsert : ∀ (m : RenameMap) (k v : Path) (pr : Path × Path),
    pr ∈ mapInsert m k v → pr = (k, v) ∨ pr ∈ m := by
  intro m
  induction m with
  | nil => intro k v pr h; simp [mapInsert] at h; exact Or.inl h
  | cons kv rest ih =>
    intro k v pr h
    obtain ⟨k', v'⟩ := kv
    simp only [mapInsert] at h
    by_cases hk : k' = k
    · rw [if_pos hk] at h
      rcases List.mem_cons.mp h with h | h
      · exact Or.inl h
      · exact Or.inr (List.mem_cons_of_mem _ h)
    · rw [if_neg hk] at h
      rcases List.mem_cons.mp h with h | h
      · exact Or.inr (h ▸ List.mem_cons_self _ _)
      · rcases ih k v pr h with h | h
        · exact Or.inl h
        · exact Or.inr (List.mem_cons_of_mem _ h)

theorem mem_foldl_mapInsert : ∀ (l : List (Path × Path)) (acc : RenameMap)
    (pr : Path × Path),
    pr ∈ l.foldl (fun m kv => mapInsert m kv.1 kv.2) acc → pr ∈ acc ∨ pr ∈ l := by
  intro l
  induction l with
  | nil => intro acc pr h; exact Or.inl h
  | cons kv rest ih =>
    intro acc pr h
    rcases ih (mapInsert acc kv.1 kv.2) pr h with h | h
    · rcases mem_mapInsert acc kv.1 kv.2 pr h with h | h
      · exact Or.inr (h ▸ List.mem_cons_self _ _)
      · exact Or.inl h
    · exact Or.inr (List.mem_cons_of_mem _ h)

theorem mem_hashMapOfList (l : List (Path × Path)) (pr : Path × Path)
    (h : pr ∈ hashMapOfList l) : pr ∈ l := by
  rcases mem_foldl_mapInsert l [] pr h with h | h
  · exact absurd h (by simp)
  · exact h

theorem mem_insertSorted : ∀ (x : Path × Path) (l : List (Path × Path))
    (pr : Path × Path), pr ∈ insertSorted x l → pr = x ∨ pr ∈ l := by
  intro x l
  induction l with
  | nil => intro pr h; simp [insertSorted] at h; exact Or.inl h
  | cons y ys ih =>
    intro pr h
    simp only [insertSorted] at h
    by_cases hle : pairLe x y
    · rw [if_pos hle] at h
      rcases List.mem_cons.mp h with h | h
      · exact Or.inl h
      · exact Or.inr h
    · rw [if_neg hle] at h
      rcases List.mem_cons.mp h with h | h
      · exact Or.inr (h ▸ List.mem_cons_self _ _)
      · rcases ih pr h with h | h
        · exact Or.inl h
        · exact Or.inr (List.mem_cons_of_mem _ h)

theorem mem_sortedPairs : ∀ (l : List (Path × Path)) (pr : Path × Path),
    pr ∈ sortedPairs l → pr ∈ l := by
  intro l
  induction l with
  | nil => intro pr h; exact absurd h (by simp [sortedPairs])
  | cons y ys ih =>
    intro pr h
    simp only [sortedPairs, List.foldr] at h
    rcases mem_insertSorted y _ pr h with h | h
    · exact h ▸ List.mem_cons_self _ _
    · exact List.mem_cons_of_mem _ (ih pr h)

theorem mem_swapPairs (m : RenameMap) (pr : Path × Path)
    (h : pr ∈ swapPairs m) : (pr.2, pr.1) ∈ m := by
  simp only [swapPairs, List.mem_map] at h
  obtain ⟨kv, hkv, heq⟩ := h
  have h1 : pr.2 = kv.1 := by rw [← heq]
  have h2 : pr.1 = kv.2 := by rw [← heq]
  rw [h1, h2]
  exact hkv

theorem mem_invertRenames (m : RenameMap) (pr : Path × Path)
    (h : pr ∈ invertRenames m) : (pr.2, pr.1) ∈ m :=
  mem_swapPairs m pr (mem_sortedPairs _ pr (mem_hashMapOfList _ pr h))

theorem drainRenames_no_identity (env : DagCopyTrace)
    (hmeta : ∀ k r, env.rename_meta k = .ok (some r) → r.path ≠ k.path) :
    ∀ (keys : List Key) (acc : RenameMap), (∀ pr ∈ acc, pr.1 ≠ pr.2) →
    ∀ m, drainRenames (renameStream env keys) acc = .ok m →
    ∀ pr ∈ m, pr.1 ≠ pr.2 := by
  intro keys
  induction keys with
  | nil =>
    intro acc hacc m hm
    simp only [renameStream, List.map_nil, drainRenames] at hm
    injection hm with hm
    exact hm ▸ hacc
  | cons k ks ih =>
    intro acc hacc m hm
    simp only [renameStream, List.map_cons] at hm
    cases hk : env.rename_meta k with
    | error e =>
      rw [hk] at hm
      simp [drainRenames] at hm
    | ok o =>
      rw [hk] at hm
      cases o with
      | none =>
        simp only [drainRenames] at hm
        exact ih acc hacc m (by simpa [renameStream] using hm)
      | some r =>
        simp only [drainRenames] at hm
        refine ih _ ?_ m (by simpa [renameStream] using hm)
        intro pr hpr
        rcases mem_mapInsert acc k.path r.path pr hpr with h | h
        · rw [h]
          exact Ne.symm (hmeta k r hk)
        · exact hacc pr h

theorem drainRenames_keys (env : DagCopyTrace) :
    ∀ (keys : List Key) (acc : RenameMap),
    (∀ k ∈ keys, ∃ o, env.rename_meta k = .ok o) →
    ∃ m, drainRenames (renameStream env keys) acc = .ok m ∧
      ∀ p, (lookupMap m p).isSome ↔
        ((∃ k r, k ∈ keys ∧ env.rename_meta k = .ok (some r) ∧ k.path = p) ∨
          (lookupMap acc p).isSome) := by
  intro keys
  induction keys with
  | nil =>
    intro acc _
    refine ⟨acc, by simp [renameStream, drainRenames], ?_⟩
    intro p
    simp
  | cons k ks ih =>
    intro acc hok
    obtain ⟨o, ho⟩ := hok k (List.mem_cons_self _ _)
    have hok' : ∀ k' ∈ ks, ∃ o, env.rename_meta k' = .ok o :=
      fun k' hk' => hok k' (List.mem_cons_of_mem _ hk')
    cases o with
    | none =>
      obtain ⟨m, hm, hiff⟩ := ih acc hok'
      have hstep : drainRenames (renameStream env (k :: ks)) acc =
          drainRenames (renameStream env ks) acc := by
        simp [renameStream, ho, drainRenames]
      refine ⟨m, hstep ▸ hm, ?_⟩
      intro p
      rw [hiff p]
      constructor
      · rintro (⟨k', r', hk', hr', hp'⟩ | h2)
        · exact Or.inl ⟨k', r', List.mem_cons_of_mem _ hk', hr', hp'⟩
        · exact Or.inr h2
      · rintro (⟨k', r', hk', hr', hp'⟩ | h2)
        · rcases List.mem_cons.mp hk' with rfl | hk''
          · rw [ho] at hr'
            exact absurd hr' (by simp)
          · exact Or.inl ⟨k', r', hk'', hr', hp'⟩
        · exact Or.inr h2
    | some r =>
      obtain ⟨m, hm, hiff⟩ := ih (mapInsert acc k.path r.path) hok'
      have hstep : drainRenames (renameStream env (k :: ks)) acc =
          drainRenames (renameStream env ks) (mapInsert acc k.path r.path) := by
        simp [renameStream, ho, drainRenames]
      refine ⟨m, hstep ▸ hm, ?_⟩
      intro p
      rw [hiff p, lookupMap_mapInsert]
      by_cases hp : p = k.path
      · rw [if_pos hp]
        exact iff_of_true (Or.inr (by simp))
          (Or.inl ⟨k, r, List.mem_cons_self _ _, ho, hp.symm⟩)
      · rw [if_neg hp]
        constructor
        · rintro (⟨k', r', hk', hr', hp'⟩ | h2)
          · exact Or.inl ⟨k', r', List.mem_cons_of_mem _ hk', hr', hp'⟩
          · exact Or.inr h2
        · rintro (⟨k', r', hk', hr', hp'⟩ | h2)
          · rcases List.mem_cons.mp hk' with rfl | hk''
            · exact absurd hp'.symm hp
            · exact Or.inl ⟨k', r', hk'', hr', hp'⟩
          · exact Or.inr h2

theorem drainRenames_abort (env : DagCopyTrace) :
    ∀ (ks1 : List Key) (k : Key) (ks2 : List Key) (e : TraceError) (acc : RenameMap),
    (∀ k' ∈ ks1, ∃ o, env.rename_meta k' = .ok o) →
    env.rename_meta k = .error e →
    drainRenames (renameStream env (ks1 ++ k :: ks2)) acc = .error e := by
  intro ks1
  induction ks1 with
  | nil =>
    intro k ks2 e acc _ hk
    simp [renameStream, hk, drainRenames]
  | cons k1 ks1 ih =>
    intro k ks2 e acc hok hk
    obtain ⟨o, ho⟩ := hok k1 (List.mem_cons_self _ _)
    have hok' : ∀ k' ∈ ks1, ∃ o, env.rename_meta k' = .ok o :=
      fun k' hk' => hok k' (List.mem_cons_of_mem _ hk')
    cases o with
    | none =>
      have hrec := ih k ks2 e acc hok' hk
      simpa [renameStream, ho, drainRenames] using hrec
    | some r =>
      have hrec := ih k ks2 e (mapInsert acc k1.path r.path) hok' hk
      simpa [renameStream, ho, drainRenames] using hrec

theorem runLoop_isSome_of_measure
    (step : Vertex → Path → Except TraceError (Option Path ⊕ (Vertex × Path)))
    (μ : Vertex → Nat)
    (hdec : ∀ c p c' p', step c p = .ok (Sum.inr (c', p')) → μ c' < μ c) :
    ∀ (fuel : Nat) (c : Vertex) (p : Path), μ c < fuel →
      (runLoop step fuel c p).isSome := by
  intro fuel
  induction fuel with
  | zero => intro c p h; exact absurd h (Nat.not_lt_zero _)
  | succ n ih =>
    intro c p h
    cases hs : step c p with
    | error e => simp [runLoop, hs]
    | ok v =>
      cases v with
      | inl r => simp [runLoop, hs]
      | inr cp =>
        obtain ⟨c', p'⟩ := cp
        have h1 : μ c' < n :=
          lt_of_lt_of_le (hdec c p c' p' hs) (Nat.lt_succ_iff.mp h)
        simpa [runLoop, hs] using ih c' p' h1

theorem find_renames_ok (env : DagCopyTrace) (t1 t2 : TreeId) (renames : RenameMap)
    (h : find_renames env t1 t2 = .ok renames) :
    ∃ keys, read_renamed_metadata env keys = .ok renames := by
  unfold find_renames at h
  cases hd : env.diff_right_only t1 t2 with
  | error e => rw [hd] at h; exact absurd h (by simp)
  | ok keys => rw [hd] at h; exact ⟨keys, h⟩

theorem find_renames_in_direction_cases (env : DagCopyTrace) (commit : Vertex)
    (direction : SearchDirection) (m : RenameMap) (next : Vertex)
    (h : find_renames_in_direction env commit direction = .ok (m, next)) :
    ∃ renames t1 t2, find_renames env t1 t2 = .ok renames ∧
      (m = renames ∨ m = invertRenames renames) := by
  unfold find_renames_in_direction at h
  cases hp : env.parent_names commit with
  | error e => rw [hp] at h; exact absurd h (by simp)
  | ok parents =>
    rw [hp] at h
    cases parents with
    | nil => exact absurd h (by simp)
    | cons p1 rest =>
      dsimp only at h
      cases h1 : vertex_to_tree_manifest env p1 with
      | error e => rw [h1] at h; exact absurd h (by simp)
      | ok t1 =>
        rw [h1] at h
        cases h2 : vertex_to_tree_manifest env commit with
        | error e => rw [h2] at h; exact absurd h (by simp)
        | ok t2 =>
          rw [h2] at h
          dsimp only at h
          cases h3 : find_renames env t1 t2 with
          | error e => rw [h3] at h; exact absurd h (by simp)
          | ok renames =>
            rw [h3] at h
            cases direction with
            | Backward =>
              injection h with h4
              injection h4 with h5 h6
              exact ⟨renames, t1, t2, h3, Or.inl h5.symm⟩
            | Forward =>
              injection h with h4
              injection h4 with h5 h6
              exact ⟨renames, t1, t2, h3, Or.inr h5.symm⟩

/-- C2: when neither endpoint is an ancestor of the other, `trace_rename`
computes the greatest common ancestor of the two; no GCA yields `Ok(None)`;
otherwise the result is the backward walk from `src` to `base` composed,
when it yields a base path, with the forward walk from `base` to `dst`,
and `Ok(None)` when the backward walk yields nothing. -/
theorem c2_gca_composition (env : DagCopyTrace) (fuel : Nat) (src dst : Vertex)
    (src_path : Path)
    (h1 : env.is_ancestor src dst = .ok false)
    (h2 : env.is_ancestor dst src = .ok false) :
    (env.gca_one src dst = .ok none →
      trace_rename env fuel src dst src_path = some (.ok none)) ∧
    (∀ base, env.gca_one src dst = .ok (some base) →
      (trace_rename_backward env fuel base src src_path = some (.ok none) →
        trace_rename env fuel src dst src_path = some (.ok none)) ∧
      (∀ base_path,
        trace_rename_backward env fuel base src src_path = some (.ok (some base_path)) →
        trace_rename env fuel src dst src_path =
          trace_rename_forward env fuel base dst base_path)) := by
  constructor
  · intro hg
    simp [trace_rename, h1, h2, hg]
  · intro base hg
    constructor
    · intro hb
      simp [trace_rename, h1, h2, hg, hb]
    · intro base_path hb
      simp [trace_rename, h1, h2, hg, hb]

theorem c2_witness :
    env0.is_ancestor 0 1 = .ok false ∧ env0.is_ancestor 1 0 = .ok false ∧
    env0.gca_one 0 1 = .ok none ∧
    trace_rename env0 1 0 1 [] = some (.ok none) :=
  ⟨rfl, rfl, rfl, (c2_gca_composition env0 1 0 1 [] rfl rfl).1 rfl⟩

/-- C5: when the rename-commit locator finds no commit in the range, both
walker loops return `check_path(target, curr_path)`; and `check_path`
answers only `none` or the very path it was asked about, never a
different path. -/
theorem c5_locator_none_check_path (env : DagCopyTrace) (src dst : Vertex)
    (p : Path) (fuel : Nat) :
    (env.rename_tracer_next src dst p = .ok none →
      trace_rename_backward env (fuel + 1) src dst p = some (check_path env src p)) ∧
    (env.rename_tracer_next src dst p = .ok none →
      trace_rename_forward env (fuel + 1) src dst p = some (check_path env dst p)) ∧
    (∀ c q r, check_path env c q = .ok r → r = none ∨ r = some q) := by
  refine ⟨?_, ?_, ?_⟩
  · intro hl
    cases hc : check_path env src p with
    | error e => simp [trace_rename_backward, runLoop, backwardStep, hl, hc]
    | ok r => simp [trace_rename_backward, runLoop, backwardStep, hl, hc]
  · intro hl
    cases hc : check_path env dst p with
    | error e => simp [trace_rename_forward, runLoop, forwardStep, hl, hc]
    | ok r => simp [trace_rename_forward, runLoop, forwardStep, hl, hc]
  · intro c q r h
    unfold check_path at h
    cases h1 : vertex_to_tree_manifest env c with
    | error e => rw [h1] at h; exact absurd h (by simp)
    | ok tree =>
      rw [h1] at h
      dsimp only at h
      cases h2 : env.tree_get tree q with
      | error e => rw [h2] at h; exact absurd h (by simp)
      | ok b =>
        rw [h2] at h
        cases b with
        | true => injection h with h3; exact Or.inr h3.symm
        | false => injection h with h3; exact Or.inl h3.symm

theorem c5_witness :
    env0.rename_tracer_next 0 1 [] = .ok none ∧
    trace_rename_backward env0 1 0 1 [] = some (check_path env0 0 []) ∧
    trace_rename_forward env0 1 0 1 [] = some (check_path env0 1 []) := by
  have h := c5_locator_none_check_path env0 0 1 [] 0
  exact ⟨rfl, h.1 rfl, h.2.1 rfl⟩

/-- C7: a commit with an empty parent list makes
`find_renames_in_direction` fail with `NoParents(commit)` in both
directions, and either walker loop that reaches such a commit surfaces the
error — never `Ok(None)`. -/
theorem c7_no_parents_error (env : DagCopyTrace) (commit src dst rc : Vertex)
    (p : Path) (fuel : Nat) :
    (env.parent_names commit = .ok [] → ∀ direction,
      find_renames_in_direction env commit direction =
        .error (.NoParents commit)) ∧
    (env.rename_tracer_next src dst p = .ok (some rc) → rc ≠ src →
      env.parent_names rc = .ok [] →
      trace_rename_backward env (fuel + 1) src dst p =
        some (.error (.NoParents rc))) ∧
    (env.rename_tracer_next src dst p = .ok (some rc) → rc ≠ src →
      env.parent_names rc = .ok [] →
      trace_rename_forward env (fuel + 1) src dst p =
        some (.error (.NoParents rc))) := by
  refine ⟨?_, ?_, ?_⟩
  · intro h direction
    simp [find_renames_in_direction, h]
  · intro hl hne hpar
    simp [trace_rename_backward, runLoop, backwardStep, hl, hne,
      find_renames_in_direction, hpar]
  · intro hl hne hpar
    simp [trace_rename_forward, runLoop, forwardStep, hl, hne,
      find_renames_in_direction, hpar]

theorem c7_witness :
    envW7.parent_names 2 = .ok [] ∧
    envW7.rename_tracer_next 0 1 [] = .ok (some 5) ∧
    (5 : Vertex) ≠ 0 ∧ envW7.parent_names 5 = .ok [] ∧
    find_renames_in_direction envW7 2 SearchDirection.Backward =
      .error (.NoParents 2) ∧
    trace_rename_backward envW7 1 0 1 [] = some (.error (.NoParents 5)) ∧
    trace_rename_forward envW7 1 0 1 [] = some (.error (.NoParents 5)) := by
  have h := c7_no_parents_error envW7 2 0 1 5 [] 0
  exact ⟨rfl, rfl, by decide, rfl, h.1 rfl SearchDirection.Backward,
    h.2.1 rfl (by decide) rfl, h.2.2 rfl (by decide) rfl⟩

/-- C8: a commit for which the root-tree resolver returns no entry makes
`vertex_to_tree_manifest` fail with `RootTreeIdNotFound(commit)`; the error
propagates through `check_path` and through a walker that needs that
manifest — it is never converted to `Ok(None)`. -/
theorem c8_root_tree_id_not_found (env : DagCopyTrace) (c dst : Vertex)
    (p : Path) (fuel : Nat) (h : env.read_root_tree_ids c = .ok []) :
    vertex_to_tree_manifest env c = .error (.RootTreeIdNotFound c) ∧
    check_path env c p = .error (.RootTreeIdNotFound c) ∧
    (env.rename_tracer_next c dst p = .ok none →
      trace_rename_backward env (fuel + 1) c dst p =
        some (.error (.RootTreeIdNotFound c))) := by
  have hv : vertex_to_tree_manifest env c = .error (.RootTreeIdNotFound c) := by
    simp [vertex_to_tree_manifest, h]
  have hc : check_path env c p = .error (.RootTreeIdNotFound c) := by
    simp [check_path, hv]
  refine ⟨hv, hc, ?_⟩
  intro hl
  simp [trace_rename_backward, runLoop, backwardStep, hl, hc]

theorem c8_witness :
    envW8.read_root_tree_ids 3 = .ok [] ∧
    vertex_to_tree_manifest envW8 3 = .error (.RootTreeIdNotFound 3) ∧
    check_path envW8 3 [] = .error (.RootTreeIdNotFound 3) ∧
    trace_rename_backward envW8 1 3 1 [] =
      some (.error (.RootTreeIdNotFound 3)) := by
  have h := c8_root_tree_id_not_found envW8 3 1 [] 0 rfl
  exact ⟨rfl, h.1, h.2.1, h.2.2 rfl⟩

/-- C10: whenever the root-tree resolver returns a non-empty list,
`vertex_to_tree_manifest` uses the tree id of the first returned pair
unconditionally — the pair's commit id (which may differ from the
requested commit) is never checked and the remaining entries are ignored. -/
theorem c10_first_pair_unconditional (env : DagCopyTrace) (c c' : Vertex)
    (t : TreeId) (rest : List (Vertex × TreeId))
    (h : env.read_root_tree_ids c = .ok ((c', t) :: rest)) :
    vertex_to_tree_manifest env c = .ok t := by
  simp [vertex_to_tree_manifest, h]

theorem c10_witness :
    envW10.read_root_tree_ids 5 = .ok ((7, 3) :: [(5, 9)]) ∧
    vertex_to_tree_manifest envW10 5 = .ok 3 ∧ (7 : Vertex) ≠ 5 :=
  ⟨rfl, c10_first_pair_unconditional envW10 5 7 3 [(5, 9)] rfl, by decide⟩

/-- C3: both walker loops terminate: whenever each continuing iteration
strictly decreases a measure of `curr` (the spec's progress argument —
the backward walk replaces `curr` by the first parent of the located
rename commit, the forward walk by the located rename commit itself, each
strictly closer to `target` along the DAG), any fuel exceeding the
measure of the starting vertex suffices, so the fuelled loops do not
diverge. -/
theorem c3_walker_termination (env : DagCopyTrace) (μ ν : Vertex → Nat)
    (hb : ∀ target curr p curr' p',
      backwardStep env target curr p = .ok (Sum.inr (curr', p')) → μ curr' < μ curr)
    (hf : ∀ target curr p curr' p',
      forwardStep env target curr p = .ok (Sum.inr (curr', p')) → ν curr' < ν curr)
    (src dst : Vertex) (p : Path) (fuel : Nat)
    (h1 : μ dst < fuel) (h2 : ν src < fuel) :
    (trace_rename_backward env fuel src dst p).isSome ∧
    (trace_rename_forward env fuel src dst p).isSome := by
  constructor
  · exact runLoop_isSome_of_measure (backwardStep env src) μ
      (fun c q c' q' => hb src c q c' q') fuel dst p h1
  · exact runLoop_isSome_of_measure (forwardStep env dst) ν
      (fun c q c' q' => hf dst c q c' q') fuel src p h2

theorem c3_witness :
    (trace_rename_backward env0 1 0 1 []).isSome ∧
    (trace_rename_forward env0 1 0 1 []).isSome := by
  refine c3_walker_termination env0 (fun _ => 0) (fun _ => 0) ?_ ?_ 0 1 [] 1
    (by decide) (by decide)
  · intro t c p c' p' h
    have hstep : backwardStep env0 t c p = .ok (Sum.inl none) := rfl
    rw [hstep] at h
    exact absurd h (by simp)
  · intro t c p c' p' h
    have hstep : forwardStep env0 t c p = .ok (Sum.inl none) := rfl
    rw [hstep] at h
    exact absurd h (by simp)

/-- C1 (counterexample): when commit `1` adds both `x = [120]` and
`y = [121]` with rename predecessor `a = [97]` and `x < y`, the
`Forward`-direction inverted map binds `a` to `y` — the survivor that
comes last in ascending new-side order, because collecting a sorted
iterator into a hash map lets later entries overwrite earlier ones — and
the trace returns the path `y`, not `x` as claimed. -/
theorem c1_counterexample :
    find_renames_in_direction (envF [97] [120] [121]) 1 SearchDirection.Forward =
      .ok ([([97], [121])], 1) ∧
    lookupMap [([97], [121])] [97] = some [121] ∧
    ([121] : Path) ≠ [120] ∧
    trace_rename (envF [97] [120] [121]) 2 0 1 [97] = some (.ok (some [121])) :=
  ⟨rfl, rfl, by decide, rfl⟩

/-- C1 (amended): in the inversion-collision scenario — commit `1` adds
`x` and `y`, both with rename predecessor `a`, and `x < y` byte-wise —
the inverted map binds `a` to `y`, the candidate that comes **last** in
ascending order of the new-side path (the hash-map collect keeps the last
writer), and `trace(0, 1, a)` returns `Some(y)`. -/
theorem c1_last_writer_wins (a x y : Path) (hlt : pathLtB x y = true)
    (hne : x ≠ y) :
    find_renames_in_direction (envF a x y) 1 SearchDirection.Forward =
      .ok ([(a, y)], 1) ∧
    trace_rename (envF a x y) 2 0 1 a = some (.ok (some y)) := by
  have hfd : find_renames_in_direction (envF a x y) 1 SearchDirection.Forward =
      .ok ([(a, y)], 1) := by
    simp [find_renames_in_direction, envF, vertex_to_tree_manifest, find_renames,
      read_renamed_metadata, renameStream, drainRenames, mapInsert, invertRenames,
      swapPairs, sortedPairs, insertSorted, pairLe, hlt, hne, hashMapOfList]
  refine ⟨hfd, ?_⟩
  have h1 : (envF a x y).is_ancestor 0 1 = .ok true := rfl
  have h2 : (envF a x y).rename_tracer_next 0 1 a = .ok (some 1) := rfl
  have h3 : (envF a x y).rename_tracer_next 1 1 y = .ok (some 1) := rfl
  simp [trace_rename, trace_rename_forward, runLoop, forwardStep, h1, h2, h3,
    hfd, lookupMap]

theorem c1_witness :
    pathLtB [120] [121] = true ∧ ([120] : Path) ≠ [121] ∧
    (find_renames_in_direction (envF [98] [120] [121]) 1 SearchDirection.Forward =
        .ok ([([98], [121])], 1) ∧
      trace_rename (envF [98] [120] [121]) 2 0 1 [98] = some (.ok (some [121]))) :=
  ⟨by decide, by decide, c1_last_writer_wins [98] [120] [121] (by decide) (by decide)⟩

/-- C4 (counterexample): commit `1` deleted path `[7]` (the path is absent
from its tree), so — with the rename-commit locator modelled from the
spec, under which a removal counts as modifying the path — the locator
reports commit `1` itself on the singleton range and
`trace_rename(1, 1, [7])` returns `Ok(Some([7]))` although `[7]` does not
exist in the tree of commit `1`, where the claim demands `Ok(None)`. -/
theorem c4_counterexample :
    trace_rename envD 1 1 1 [7] = some (.ok (some [7])) ∧
    envD.tree_get 1 [7] = .ok false ∧
    check_path envD 1 [7] = .ok none ∧
    some ([7] : Path) ≠ none :=
  ⟨rfl, rfl, rfl, by decide⟩

/-- C4 (amended): with `src = dst = c` and reflexive ancestry, the trace
runs one forward iteration: when the locator reports `c` itself (the path
was added, changed or removed at `c`) the result is `Ok(Some(p))`
unconditionally; when the locator reports nothing the result is
`check_path(c, p)` — `Ok(Some(p))` exactly when `p` is present in the
tree of `c`, else `Ok(None)`.  In particular a path present in `c`'s
tree is always returned unchanged, but a path removed at `c` is also
returned even though it is absent. -/
theorem c4_identity_amended (env : DagCopyTrace) (c : Vertex) (p : Path)
    (fuel : Nat) (t : TreeId) (b : Bool)
    (href : env.is_ancestor c c = .ok true)
    (ht : vertex_to_tree_manifest env c = .ok t)
    (hb : env.tree_get t p = .ok b) :
    (env.rename_tracer_next c c p = .ok (some c) →
      trace_rename env (fuel + 1) c c p = some (.ok (some p))) ∧
    (env.rename_tracer_next c c p = .ok none →
      trace_rename env (fuel + 1) c c p =
        some (.ok (if b then some p else none))) := by
  constructor
  · intro hl
    simp [trace_rename, href, trace_rename_forward, runLoop, forwardStep, hl]
  · intro hl
    have hc : check_path env c p = .ok (if b then some p else none) := by
      cases b <;> simp [check_path, ht, hb]
    simp [trace_rename, href, trace_rename_forward, runLoop, forwardStep, hl, hc]

theorem c4_witness :
    envD.is_ancestor 2 2 = .ok true ∧
    vertex_to_tree_manifest envD 2 = .ok 2 ∧
    envD.tree_get 2 [9] = .ok false ∧
    envD.rename_tracer_next 2 2 [9] = .ok none ∧
    trace_rename envD 1 2 2 [9] = some (.ok none) := by
  have h := c4_identity_amended envD 2 [9] 0 2 false rfl rfl rfl
  exact ⟨rfl, rfl, rfl, rfl, h.2 rfl⟩

/-- C6 (counterexample): the code never filters identity entries — a file
whose rename header names the file's own path produces the entry
`[5] → [5]` in the map returned by `read_renamed_metadata`, and that
identity entry survives in the per-commit maps of both directions. -/
theorem c6_counterexample :
    read_renamed_metadata envI [⟨[5], 9⟩] = .ok [([5], [5])] ∧
    lookupMap [([5], [5])] [5] = some [5] ∧
    find_renames_in_direction envI 1 SearchDirection.Backward =
      .ok ([([5], [5])], 0) ∧
    find_renames_in_direction envI 1 SearchDirection.Forward =
      .ok ([([5], [5])], 1) :=
  ⟨rfl, rfl, rfl, rfl⟩

/-- C6 (amended): provided the file store never reports a rename header
whose source path equals the file's own path, every rename map produced
during a trace — the map returned by `read_renamed_metadata` and the map
(raw or inverted) returned by `find_renames_in_direction` in either
direction — contains no identity entry. -/
theorem c6_no_identity_amended (env : DagCopyTrace)
    (hmeta : ∀ k r, env.rename_meta k = .ok (some r) → r.path ≠ k.path) :
    (∀ keys m, read_renamed_metadata env keys = .ok m →
      ∀ p q, lookupMap m p = some q → p ≠ q) ∧
    (∀ commit direction m next,
      find_renames_in_direction env commit direction = .ok (m, next) →
      ∀ p q, lookupMap m p = some q → p ≠ q) := by
  have hrm : ∀ keys m, read_renamed_metadata env keys = .ok m →
      ∀ pr ∈ m, pr.1 ≠ pr.2 := by
    intro keys m hm
    exact drainRenames_no_identity env hmeta keys [] (by simp) m hm
  constructor
  · intro keys m hm p q hlook
    exact hrm keys m hm (p, q) (mem_of_lookupMap m p q hlook)
  · intro commit direction m next hfd p q hlook
    obtain ⟨renames, t1, t2, hfr, hcase⟩ :=
      find_renames_in_direction_cases env commit direction m next hfd
    obtain ⟨keys, hkeys⟩ := find_renames_ok env t1 t2 renames hfr
    have hren : ∀ pr ∈ renames, pr.1 ≠ pr.2 := hrm keys renames hkeys
    have hmem := mem_of_lookupMap m p q hlook
    rcases hcase with rfl | rfl
    · exact hren (p, q) hmem
    · exact Ne.symm (hren (q, p) (mem_invertRenames renames (p, q) hmem))

theorem c6_witness :
    (∀ k r, envW6.rename_meta k = .ok (some r) → r.path ≠ k.path) ∧
    (∀ keys m, read_renamed_metadata envW6 keys = .ok m →
      ∀ p q, lookupMap m p = some q → p ≠ q) := by
  have hmeta : ∀ k r, envW6.rename_meta k = .ok (some r) → r.path ≠ k.path := by
    intro k r h
    have h' : (Except.ok (some (Key.mk (0 :: k.path) 0)) :
        Except TraceError (Option Key)) = .ok (some r) := h
    injection h' with h1
    injection h1 with h2
    rw [← h2]
    exact List.cons_ne_self _ _
  exact ⟨hmeta, (c6_no_identity_amended envW6 hmeta).1⟩

/-- C9: `read_renamed_metadata` on an empty batch yields the empty map;
when every per-key lookup succeeds, the key set of the returned map is
exactly the set of destination paths of input keys whose rename header is
present; and an error on any individual stream item makes the whole batch
return that error. -/
theorem c9_read_renamed_metadata_spec (env : DagCopyTrace) (keys : List Key)
    (hok : ∀ k ∈ keys, ∃ o, env.rename_meta k = .ok o) :
    read_renamed_metadata env [] = .ok [] ∧
    (∃ m, read_renamed_metadata env keys = .ok m ∧
      ∀ p, (lookupMap m p).isSome ↔
        ∃ k r, k ∈ keys ∧ env.rename_meta k = .ok (some r) ∧ k.path = p) ∧
    (∀ ks1 k ks2 e, (∀ k' ∈ ks1, ∃ o, env.rename_meta k' = .ok o) →
      env.rename_meta k = .error e →
      read_renamed_metadata env (ks1 ++ k :: ks2) = .error e) := by
  refine ⟨rfl, ?_, ?_⟩
  · obtain ⟨m, hm, hiff⟩ := drainRenames_keys env keys [] hok
    refine ⟨m, hm, fun p => ?_⟩
    rw [hiff p]
    simp [lookupMap]
  · intro ks1 k ks2 e hpre herr
    exact drainRenames_abort env ks1 k ks2 e [] hpre herr

theorem c9_witness :
    (∀ k ∈ [Key.mk [1] 1], ∃ o, envC9.rename_meta k = .ok o) ∧
    (read_renamed_metadata envC9 [] = .ok [] ∧
      (∃ m, read_renamed_metadata envC9 [Key.mk [1] 1] = .ok m ∧
        ∀ p, (lookupMap m p).isSome ↔
          ∃ k r, k ∈ [Key.mk [1] 1] ∧ envC9.rename_meta k = .ok (some r) ∧
            k.path = p) ∧
      (∀ ks1 k ks2 e, (∀ k' ∈ ks1, ∃ o, envC9.rename_meta k' = .ok o) →
        envC9.rename_meta k = .error e →
        read_renamed_metadata envC9 (ks1 ++ k :: ks2) = .error e)) := by
  have hok : ∀ k ∈ [Key.mk [1] 1], ∃ o, envC9.rename_meta k = .ok o := by
    intro k hk
    simp only [List.mem_singleton] at hk
    subst hk
    exact ⟨some ⟨[2], 0⟩, rfl⟩
  exact ⟨hok, c9_read_renamed_metadata_spec envC9 [Key.mk [1] 1] hok⟩

end CopyTrace
